import Mathlib

/-!
Verification of the MuSig2 protocol core (`src/protocols/musig2/mod.rs`).

The embedding works over the prime-order subgroup of ed25519, represented
through its discrete-logarithm isomorphism with `ZMod q` (`q` the group
order): the generator corresponds to `1`, point addition to addition, and
scalar multiplication of a point to multiplication in `ZMod q`.  This is a
faithful model of the external curve-arithmetic collaborator, which the
specification places out of scope and describes only through its interface
(point/scalar arithmetic, canonical encoding, hash-to-scalar).

In the `curv` ed25519 backend used by the source, `to_bytes(true)` and
`to_bytes(false)` both yield the same canonical 32-byte encoding (Edwards
points have no separate uncompressed form), so a single `pointBytes`
function models both.

`NUMBER_OF_NONCES` is the constant `2` in the source, so the `[T; 2]`
arrays are modelled as pairs.
-/

set_option maxRecDepth 100000

/-- Order of the prime-order subgroup of ed25519 (the scalar field size). -/
def q : Nat := 2 ^ 252 + 27742317777372353535851937790883648493

instance : NeZero q := ⟨by decide⟩

/-- Scalars of the ed25519 scalar field, as in `curv`'s `Scalar<Ed25519>`. -/
abbrev Scalar := ZMod q

/-- Points of the prime-order subgroup, via discrete log: `curv`'s
`Point<Ed25519>` modelled as the exponent of the generator. -/
abbrev Point := ZMod q

/-- The group generator (`Point::generator()`); exponent `1` in the
discrete-log representation. -/
def G : Point := 1

/-- Big-endian base-256 digits of `v`, padded to `n` bytes. -/
def beBytes : Nat → Nat → List Nat
  | 0, _ => []
  | n + 1, v => v / 256 ^ n :: beBytes n (v % 256 ^ n)

/-- Canonical 32-byte encoding of a point (`Point::to_bytes`); in the
`curv` ed25519 backend the compressed and uncompressed encodings coincide,
so the single function models both.  Modelled as the big-endian bytes of
the discrete-log representative, which is injective like the real
encoding. -/
def pointBytes (p : Point) : List Nat := beBytes 32 p.val

/-- Canonical 32-byte encoding of a scalar (`Scalar::to_bytes`). -/
def scalarBytes (s : Scalar) : List Nat := beBytes 32 s.val

/-- Modelled from the spec: the external wide-output hash-to-scalar
primitive (`Sha512` chained over the input bytes followed by
`result_scalar`'s reduction into the scalar field).  The proofs rely only
on it being a deterministic function of the byte string; a concrete
injective-ish folding makes it executable. -/
def hashToScalar (bytes : List Nat) : Scalar :=
  bytes.foldl (fun acc b => acc * 257 + (b : Scalar)) 0

/-- Lexicographic (with length tiebreak) `<=` on byte strings: the order
of Rust's `Ord` on `Vec<u8>` (`left.to_bytes(false).cmp(...)`). -/
def bytesLe : List Nat → List Nat → Bool
  | [], _ => true
  | _ :: _, [] => false
  | a :: as, b :: bs => if a < b then true else if a = b then bytesLe as bs else false

/-- Lexicographic (with length tiebreak) `<` on byte strings: Rust's
`gt` on `Vec<u8>` is `bytesLt` with the arguments swapped. -/
def bytesLt : List Nat → List Nat → Bool
  | [], [] => false
  | [], _ :: _ => true
  | _ :: _, [] => false
  | a :: as, b :: bs => if a < b then true else if a = b then bytesLt as bs else false

/-- The comparison `left.to_bytes(false).cmp(&right.to_bytes(false))`
used by `sort_by` in `key_aggregation_n`, as an ordering relation. -/
def ptLe (a b : Point) : Prop := bytesLe (pointBytes a) (pointBytes b) = true

instance : DecidableRel ptLe := fun a b => by unfold ptLe; infer_instance

/-- `public_keys.sort_by(|l, r| l.to_bytes(false).cmp(&r.to_bytes(false)))`:
the key list sorted ascending by canonical byte encoding.  Rust's stable
sort is modelled by insertion sort; since the encoding is injective the
order is antisymmetric and every correct sort yields the same list. -/
def sortedKeys (l : List Point) : List Point := l.insertionSort ptLe

/-- The loop in `key_aggregation_n` that scans `public_keys[1..]` and
stops at the first key whose encoding is strictly greater than the first
(smallest) key's encoding; falls back to the first key itself. -/
def findSecond (first : Point) : List Point → Point
  | [] => first
  | public_key :: rest =>
    if bytesLt (pointBytes first) (pointBytes public_key) then public_key
    else findSecond first rest

/-- The `second_public_key` selected by `key_aggregation_n` from the
sorted key list (`0` is unreachable: the source panics on an empty list
before the search). -/
def secondKey (l : List Point) : Point :=
  match sortedKeys l with
  | [] => 0
  | first :: rest => findSecond first rest

/-- The per-key coefficient computed inside `key_aggregation_n`'s loop:
`1` for the second distinct key, otherwise the hash of domain tag `1`,
the key's encoding, and all sorted keys' encodings. -/
def coeffOf (l : List Point) (public_key : Point) : Scalar :=
  if public_key = secondKey l then 1
  else hashToScalar ([1] ++ pointBytes public_key ++ ((sortedKeys l).map pointBytes).flatten)

/-- `PublicKeyAgg { agg_public_key, musig_coefficient }`. -/
structure PublicKeyAgg where
  agg_public_key : Point
  musig_coefficient : Scalar
deriving DecidableEq

/-- `PartialNonces { r: [Scalar; 2], R: [Point; 2] }`. -/
structure PartialNonces where
  r : Scalar × Scalar
  R : Point × Point
deriving DecidableEq

/-- `PartialSignature { R, my_partial_s }`. -/
structure PartialSignature where
  R : Point
  my_partial_s : Scalar
deriving DecidableEq

/-- `Signature { R, s }` from `super::`, the final aggregate signature. -/
structure Signature where
  R : Point
  s : Scalar
deriving DecidableEq

/-- Modelled from the spec: the `ExpandedPrivateKey` of `super::`
(missing from the analyzed sources), holding the secret derivation seed
(the source's `prefix` field) distinct from the raw private scalar. -/
structure ExpandedPrivateKey where
  prefixSeed : Scalar
  private_key : Scalar
deriving DecidableEq

/-- Modelled from the spec: the `ExpandedKeyPair` of `super::` (missing
from the analyzed sources): the signer's public key together with the
expanded private key material. -/
structure ExpandedKeyPair where
  public_key : Point
  expanded_private_key : ExpandedPrivateKey
deriving DecidableEq

/-- The body of `key_aggregation_n` after the in-place sort, taking the
sorted key list: selects `second_public_key`, then folds over the keys
accumulating the coefficient-weighted sum and the caller's own
coefficient (initial values `Point::zero()` and `Scalar::zero()`). -/
def keyAggCore (sorted : List Point) (my_public_key : Point) : Option PublicKeyAgg :=
  match sorted with
  | [] => none
  | first :: rest =>
    let second_public_key := findSecond first rest
    let result := (first :: rest).foldl
      (fun acc public_key =>
        let musig_coefficient : Scalar :=
          if public_key = second_public_key then 1
          else hashToScalar
            ([1] ++ pointBytes public_key ++ ((first :: rest).map pointBytes).flatten)
        let a_i := public_key * musig_coefficient
        (acc.1 + a_i, if public_key = my_public_key then musig_coefficient else acc.2))
      (0, 0)
    some { agg_public_key := result.1, musig_coefficient := result.2 }

/-- `PublicKeyAgg::key_aggregation_n`: sorts the keys by encoding and
aggregates them.  `none` models the source's panic: with an empty key
list the source indexes `public_keys[0]` out of bounds. -/
def key_aggregation_n (public_keys : List Point) (my_public_key : Point) :
    Option PublicKeyAgg :=
  keyAggCore (sortedKeys public_keys) my_public_key

/-- `generate_partial_nonces`.  The external RNG is modelled by the pair
of 32-byte draws `rng.gen::<[u8; 32]>()` performed by the two iterations
of the array map, in order. -/
def generate_partial_nonces (keys : ExpandedKeyPair) (message : Option (List Nat))
    (rand : List Nat × List Nat) : PartialNonces :=
  let mk := fun draw =>
    hashToScalar
      ([2] ++ scalarBytes keys.expanded_private_key.prefixSeed
        ++ message.getD [] ++ draw)
  let r : Scalar × Scalar := (mk rand.1, mk rand.2)
  let R : Point × Point := (G * r.1, G * r.2)
  { r := r, R := R }

/-- Modelled from the spec: the base single-signer scheme's Fiat-Shamir
challenge function (`Signature::k` of `super::`, missing from the
analyzed sources), a hash-to-scalar over the nonce point, the public key
and the message. -/
def Signature.k (R : Point) (public_key : Point) (message : List Nat) : Scalar :=
  hashToScalar (pointBytes R ++ pointBytes public_key ++ message)

/-- `partial_sign`: sums the nonce slots over all parties, derives the
binding scalar `b`, folds the Horner combination of the two slots, and
produces this signer's partial signature. -/
def partial_sign (nonces_from_other_parties : List (Point × Point))
    (my_partial_nonces : PartialNonces) (agg_public_key : PublicKeyAgg)
    (my_keypair : ExpandedKeyPair) (message : List Nat) : PartialSignature :=
  let R : Point × Point :=
    nonces_from_other_parties.foldl
      (fun accumulator partial_nonce_array =>
        (accumulator.1 + partial_nonce_array.1,
         accumulator.2 + partial_nonce_array.2))
      my_partial_nonces.R
  let b : Scalar :=
    hashToScalar ([3] ++ pointBytes agg_public_key.agg_public_key
      ++ pointBytes R.1 ++ pointBytes R.2 ++ message)
  let folded : Point × Scalar × Scalar :=
    [(R.2, my_partial_nonces.r.2)].foldl
      (fun accumulator nonce_tuple =>
        (accumulator.1 + accumulator.2.2 * nonce_tuple.1,
         accumulator.2.1 + accumulator.2.2 * nonce_tuple.2,
         accumulator.2.1 * b))
      (R.1, my_partial_nonces.r.1, b)
  let effective_R := folded.1
  let effective_r := folded.2.1
  let sig_challenge := Signature.k effective_R agg_public_key.agg_public_key message
  { R := effective_R,
    my_partial_s := sig_challenge * agg_public_key.musig_coefficient
      * my_keypair.expanded_private_key.private_key + effective_r }

/-- `aggregate_partial_signatures`: sums the other parties' partial
scalars and adds the caller's own, pairing the total with the caller's
own `R`. -/
def aggregate_partial_signatures (my_partial_sig : PartialSignature)
    (partial_sigs_from_other_parties : List Scalar) : Signature :=
  let aggregate_signature :=
    partial_sigs_from_other_parties.sum + my_partial_sig.my_partial_s
  { R := my_partial_sig.R, s := aggregate_signature }

/-- Modelled from the spec: the base single-signer verification algorithm
(`Signature::verify` of `super::`, missing from the analyzed sources):
the Schnorr check `s·G = R + k(R, A, m)·A`. -/
def Signature.verify (sig : Signature) (public_key : Point) (message : List Nat) :
    Bool :=
  decide (sig.s * G = sig.R + Signature.k sig.R public_key message * public_key)

/-- Modelled from the spec: an ordinary single-party Schnorr-style
signature over `message` with nonce scalar `rho`:
`R = rho·G`, `s = rho + k(R, A, m)·x`. -/
def ordinary_sign (keys : ExpandedKeyPair) (rho : Scalar) (message : List Nat) :
    Signature :=
  let R := rho * G
  { R := R,
    s := rho + Signature.k R keys.public_key message
      * keys.expanded_private_key.private_key }

/-! ### Properties of the byte-string order -/

theorem bytesLe_refl : ∀ a, bytesLe a a = true
  | [] => rfl
  | x :: xs => by simp [bytesLe, bytesLe_refl xs]

theorem bytesLe_total : ∀ a b, bytesLe a b = true ∨ bytesLe b a = true
  | [], _ => Or.inl rfl
  | _ :: _, [] => Or.inr rfl
  | x :: xs, y :: ys => by
    rcases Nat.lt_trichotomy x y with h | h | h
    · exact Or.inl (by simp [bytesLe, h])
    · subst h
      rcases bytesLe_total xs ys with h2 | h2
      · exact Or.inl (by simp [bytesLe, h2])
      · exact Or.inr (by simp [bytesLe, h2])
    · exact Or.inr (by simp [bytesLe, h])

theorem bytesLe_cons_iff (x y : Nat) (xs ys : List Nat) :
    bytesLe (x :: xs) (y :: ys) = true ↔ x < y ∨ (x = y ∧ bytesLe xs ys = true) := by
  simp only [bytesLe]
  split_ifs with h1 h2
  · simp [h1]
  · simp [h1, h2]
  · simp [h1, h2]

theorem bytesLe_trans : ∀ a b c, bytesLe a b = true → bytesLe b c = true →
    bytesLe a c = true
  | [], _, _, _, _ => rfl
  | _ :: _, [], _, h1, _ => by simp [bytesLe] at h1
  | _ :: _, _ :: _, [], _, h2 => by simp [bytesLe] at h2
  | x :: xs, y :: ys, z :: zs, h1, h2 => by
    rw [bytesLe_cons_iff] at h1 h2 ⊢
    rcases h1 with h1 | ⟨rfl, h1⟩
    · rcases h2 with h2 | ⟨rfl, h2⟩
      · exact Or.inl (by omega)
      · exact Or.inl h1
    · rcases h2 with h2 | ⟨rfl, h2⟩
      · exact Or.inl h2
      · exact Or.inr ⟨rfl, bytesLe_trans xs ys zs h1 h2⟩

theorem bytesLe_antisymm : ∀ a b, bytesLe a b = true → bytesLe b a = true → a = b
  | [], [], _, _ => rfl
  | [], _ :: _, _, h2 => by simp [bytesLe] at h2
  | _ :: _, [], h1, _ => by simp [bytesLe] at h1
  | x :: xs, y :: ys, h1, h2 => by
    rw [bytesLe_cons_iff] at h1 h2
    rcases h1 with h1 | ⟨rfl, h1⟩
    · rcases h2 with h2 | ⟨e, h2⟩ <;> omega
    · rcases h2 with h2 | ⟨e, h2⟩
      · omega
      · rw [bytesLe_antisymm xs ys h1 h2]

theorem bytesLt_irrefl : ∀ a, bytesLt a a = false
  | [] => rfl
  | x :: xs => by simp [bytesLt, bytesLt_irrefl xs]

theorem beBytes_inj : ∀ (n v w : Nat), v < 256 ^ n → w < 256 ^ n →
    beBytes n v = beBytes n w → v = w
  | 0, v, w, hv, hw, _ => by
    simp only [pow_zero, Nat.lt_one_iff] at hv hw
    omega
  | n + 1, v, w, hv, hw, h => by
    simp only [beBytes, List.cons.injEq] at h
    obtain ⟨h1, h2⟩ := h
    have hpos : 0 < 256 ^ n := Nat.pos_pow_of_pos n (by omega)
    have hmod := beBytes_inj n (v % 256 ^ n) (w % 256 ^ n)
      (Nat.mod_lt _ hpos) (Nat.mod_lt _ hpos) h2
    calc v = 256 ^ n * (v / 256 ^ n) + v % 256 ^ n := (Nat.div_add_mod v _).symm
    _ = 256 ^ n * (w / 256 ^ n) + w % 256 ^ n := by rw [h1, hmod]
    _ = w := Nat.div_add_mod w _

theorem q_lt : q < 256 ^ 32 := by decide

theorem pointBytes_inj {a b : Point} (h : pointBytes a = pointBytes b) : a = b := by
  have ha : a.val < 256 ^ 32 := lt_trans (ZMod.val_lt a) q_lt
  have hb : b.val < 256 ^ 32 := lt_trans (ZMod.val_lt b) q_lt
  exact ZMod.val_injective q (beBytes_inj 32 a.val b.val ha hb h)

instance : IsTotal Point ptLe := ⟨fun a b => bytesLe_total _ _⟩

instance : IsTrans Point ptLe := ⟨fun _ _ _ => bytesLe_trans _ _ _⟩

instance : IsAntisymm Point ptLe :=
  ⟨fun _ _ h1 h2 => pointBytes_inj (bytesLe_antisymm _ _ h1 h2)⟩

/-! ### Properties of the sort -/

theorem sortedKeys_sorted (l : List Point) : List.Sorted ptLe (sortedKeys l) :=
  List.sorted_insertionSort ptLe l

theorem sortedKeys_perm (l : List Point) : (sortedKeys l).Perm l :=
  List.perm_insertionSort ptLe l

theorem sortedKeys_eq_of_perm {a b : List Point} (h : a.Perm b) :
    sortedKeys a = sortedKeys b :=
  List.eq_of_perm_of_sorted ((sortedKeys_perm a).trans (h.trans (sortedKeys_perm b).symm))
    (sortedKeys_sorted a) (sortedKeys_sorted b)

theorem findSecond_eq (f : Point) : ∀ l : List Point,
    findSecond f l =
      (l.find? (fun pk => bytesLt (pointBytes f) (pointBytes pk))).getD f
  | [] => rfl
  | pk :: rest => by
    by_cases h : bytesLt (pointBytes f) (pointBytes pk) = true
    · simp [findSecond, h, List.find?]
    · simp only [Bool.not_eq_true] at h
      simp [findSecond, h, List.find?, findSecond_eq f rest]

/-! ### Characterization of `key_aggregation_n` -/

/-- The coefficient assigned by `key_aggregation_n`'s loop when the sorted
key list is `f :: rest` (same expression as in the loop body). -/
def keyCoeff (f : Point) (rest : List Point) (pk : Point) : Scalar :=
  if pk = findSecond f rest then 1
  else hashToScalar ([1] ++ pointBytes pk ++ ((f :: rest).map pointBytes).flatten)

theorem keyAggFold_eq (c : Point → Scalar) (my : Point) :
    ∀ (lst : List Point) (init : Point × Scalar),
      lst.foldl (fun acc pk => (acc.1 + pk * c pk, if pk = my then c pk else acc.2)) init
        = (init.1 + (lst.map (fun pk => pk * c pk)).sum,
           if my ∈ lst then c my else init.2)
  | [], init => by simp
  | pk :: rest, init => by
    rw [List.foldl_cons, keyAggFold_eq c my rest]
    simp only [List.map_cons, List.sum_cons, List.mem_cons, Prod.mk.injEq]
    constructor
    · rw [add_assoc]
    · by_cases h1 : pk = my
      · subst h1
        by_cases h2 : pk ∈ rest <;> simp [h2]
      · have h1' : ¬(my = pk) := fun e => h1 e.symm
        simp [h1, h1']

theorem keyAggCore_cons (f : Point) (rest : List Point) (my : Point) :
    keyAggCore (f :: rest) my =
      some { agg_public_key := ((f :: rest).map (fun pk => pk * keyCoeff f rest pk)).sum,
             musig_coefficient := if my ∈ f :: rest then keyCoeff f rest my else 0 } := by
  have h := keyAggFold_eq (keyCoeff f rest) my (f :: rest) (0, 0)
  calc keyAggCore (f :: rest) my
      = some { agg_public_key :=
                 ((f :: rest).foldl
                   (fun acc pk => (acc.1 + pk * keyCoeff f rest pk,
                     if pk = my then keyCoeff f rest pk else acc.2)) (0, 0)).1,
               musig_coefficient :=
                 ((f :: rest).foldl
                   (fun acc pk => (acc.1 + pk * keyCoeff f rest pk,
                     if pk = my then keyCoeff f rest pk else acc.2)) (0, 0)).2 } := rfl
    _ = _ := by rw [h]; simp

theorem keyCoeff_eq_coeffOf {l : List Point} {f : Point} {rest : List Point}
    (hsr : sortedKeys l = f :: rest) (pk : Point) :
    keyCoeff f rest pk = coeffOf l pk := by
  unfold keyCoeff coeffOf secondKey
  rw [hsr]

theorem sortedKeys_ne_nil {l : List Point} (hne : l ≠ []) :
    ∃ f rest, sortedKeys l = f :: rest := by
  cases hs : sortedKeys l with
  | nil =>
    have hp := sortedKeys_perm l
    rw [hs] at hp
    exact absurd (List.Perm.eq_nil hp.symm) hne
  | cons f rest => exact ⟨f, rest, rfl⟩

theorem key_aggregation_n_eq (l : List Point) (my : Point) (hne : l ≠ []) :
    key_aggregation_n l my =
      some { agg_public_key := (l.map (fun pk => pk * coeffOf l pk)).sum,
             musig_coefficient := if my ∈ l then coeffOf l my else 0 } := by
  obtain ⟨f, rest, hsr⟩ := sortedKeys_ne_nil hne
  unfold key_aggregation_n
  rw [hsr, keyAggCore_cons]
  have hmap : ((f :: rest).map (fun pk => pk * keyCoeff f rest pk)).sum
      = (l.map (fun pk => pk * coeffOf l pk)).sum := by
    rw [List.map_congr_left (fun pk _ => by rw [keyCoeff_eq_coeffOf hsr])]
    exact List.Perm.sum_eq ((hsr ▸ sortedKeys_perm l).map _)
  have hmem : (my ∈ f :: rest) ↔ my ∈ l := by
    rw [← hsr]
    exact (sortedKeys_perm l).mem_iff
  rw [hmap, keyCoeff_eq_coeffOf hsr]
  simp only [hmem]

/-! ### Characterization of `partial_sign` -/

/-- The binding-scalar hash in `partial_sign` (domain tag `3`). -/
def bindingScalar (aggpk R0 R1 : Point) (msg : List Nat) : Scalar :=
  hashToScalar ([3] ++ pointBytes aggpk ++ pointBytes R0 ++ pointBytes R1 ++ msg)

theorem foldl_pairAdd :
    ∀ (others : List (Point × Point)) (init : Point × Point),
      others.foldl
          (fun accumulator p => (accumulator.1 + p.1, accumulator.2 + p.2)) init
        = (init.1 + (others.map Prod.fst).sum, init.2 + (others.map Prod.snd).sum)
  | [], init => by simp
  | p :: rest, init => by
    rw [List.foldl_cons, foldl_pairAdd rest]
    simp [add_assoc]

theorem partial_sign_eq (others : List (Point × Point)) (np : PartialNonces)
    (agg : PublicKeyAgg) (kp : ExpandedKeyPair) (msg : List Nat)
    (R0 R1 : Point) (b e : Scalar)
    (hR0 : R0 = np.R.1 + (others.map Prod.fst).sum)
    (hR1 : R1 = np.R.2 + (others.map Prod.snd).sum)
    (hb : b = bindingScalar agg.agg_public_key R0 R1 msg)
    (he : e = Signature.k (R0 + b * R1) agg.agg_public_key msg) :
    partial_sign others np agg kp msg =
      { R := R0 + b * R1,
        my_partial_s := e * agg.musig_coefficient
          * kp.expanded_private_key.private_key + (np.r.1 + b * np.r.2) } := by
  subst hR0 hR1 hb he
  simp only [partial_sign, foldl_pairAdd, List.foldl_cons, List.foldl_nil]
  rfl

/-! ### Round-trip verification -/

theorem sum_perm_cons {α β : Type} [AddCommMonoid β] (f : α → β) {x : α}
    {t l : List α} (h : (x :: t).Perm l) :
    (t.map f).sum + f x = (l.map f).sum := by
  have hs := (h.map f).sum_eq
  rw [List.map_cons, List.sum_cons] at hs
  rw [add_comm, hs]

theorem sig_sum_split {ι : Type} (L : List ι) (e b : Scalar)
    (c x r0 r1 : ι → Scalar) :
    (L.map (fun j => e * c j * x j + (r0 j + b * r1 j))).sum
      = ((L.map r0).sum + b * (L.map r1).sum)
        + e * (L.map (fun j => c j * x j)).sum := by
  induction L with
  | nil => simp
  | cons a t ih =>
    simp only [List.map_cons, List.sum_cons, ih]
    ring

theorem roundtrip_aux (N : Nat) (kp : Fin N → ExpandedKeyPair)
    (np : Fin N → PartialNonces) (others : Fin N → List (Point × Point))
    (agg : Fin N → PublicKeyAgg) (msg : List Nat) (pks : List Point)
    (S R0 R1 : Point) (b e : Scalar) (i₀ : Fin N) (idxs : List (Fin N))
    (hpks : pks = (List.finRange N).map (fun j => (kp j).public_key))
    (hS : S = (pks.map (fun pk => pk * coeffOf pks pk)).sum)
    (hR0 : R0 = (((List.finRange N).map (fun j => (np j).R)).map Prod.fst).sum)
    (hR1 : R1 = (((List.finRange N).map (fun j => (np j).R)).map Prod.snd).sum)
    (hb : b = bindingScalar S R0 R1 msg)
    (he : e = Signature.k (R0 + b * R1) S msg)
    (honest_key : ∀ i, (kp i).public_key
      = (kp i).expanded_private_key.private_key * G)
    (honest_nonce : ∀ i, (np i).R.1 = (np i).r.1 * G ∧ (np i).R.2 = (np i).r.2 * G)
    (hbroadcast : ∀ i, ((np i).R :: others i).Perm
      ((List.finRange N).map (fun j => (np j).R)))
    (hagg : ∀ i, key_aggregation_n pks ((kp i).public_key) = some (agg i))
    (hidxs : (i₀ :: idxs).Perm (List.finRange N)) :
    (aggregate_partial_signatures
        (partial_sign (others i₀) (np i₀) (agg i₀) (kp i₀) msg)
        (idxs.map (fun j =>
          (partial_sign (others j) (np j) (agg j) (kp j) msg).my_partial_s))).verify
      (agg i₀).agg_public_key msg = true := by
  have hfinne : List.finRange N ≠ [] := List.ne_nil_of_mem (List.mem_finRange i₀)
  have hne : pks ≠ [] := by
    rw [hpks]
    intro h
    exact hfinne (List.map_eq_nil_iff.mp h)
  have hmem : ∀ i : Fin N, (kp i).public_key ∈ pks := by
    intro i
    rw [hpks]
    exact List.mem_map_of_mem _ (List.mem_finRange i)
  have hchar : ∀ i : Fin N, agg i =
      { agg_public_key := S,
        musig_coefficient := coeffOf pks ((kp i).public_key) } := by
    intro i
    have h := hagg i
    rw [key_aggregation_n_eq _ _ hne, if_pos (hmem i), ← hS] at h
    exact (Option.some.inj h).symm
  have haggpk : ∀ i, (agg i).agg_public_key = S := fun i => by rw [hchar i]
  have hcoeff : ∀ i, (agg i).musig_coefficient
      = coeffOf pks ((kp i).public_key) := fun i => by rw [hchar i]
  have hsum1 : ∀ i, R0 = (np i).R.1 + ((others i).map Prod.fst).sum := by
    intro i
    have hs := ((hbroadcast i).map Prod.fst).sum_eq
    rw [List.map_cons, List.sum_cons] at hs
    rw [hR0, ← hs]
  have hsum2 : ∀ i, R1 = (np i).R.2 + ((others i).map Prod.snd).sum := by
    intro i
    have hs := ((hbroadcast i).map Prod.snd).sum_eq
    rw [List.map_cons, List.sum_cons] at hs
    rw [hR1, ← hs]
  have hpsig : ∀ i, partial_sign (others i) (np i) (agg i) (kp i) msg =
      { R := R0 + b * R1,
        my_partial_s := e * coeffOf pks ((kp i).public_key)
          * (kp i).expanded_private_key.private_key
          + ((np i).r.1 + b * (np i).r.2) } := by
    intro i
    rw [partial_sign_eq (others i) (np i) (agg i) (kp i) msg R0 R1 b e
      (hsum1 i) (hsum2 i) (by rw [hb, haggpk i]) (by rw [he, haggpk i]),
      hcoeff i]
  rw [haggpk i₀]
  simp only [hpsig, aggregate_partial_signatures, Signature.verify,
    decide_eq_true_eq]
  rw [sum_perm_cons (fun j => e * coeffOf pks ((kp j).public_key)
    * (kp j).expanded_private_key.private_key
    + ((np j).r.1 + b * (np j).r.2)) hidxs]
  rw [← he]
  have hR0s : R0 = ((List.finRange N).map (fun j => (np j).r.1)).sum := by
    rw [hR0, List.map_map]
    refine congrArg List.sum (List.map_congr_left ?_)
    intro j _
    simp only [Function.comp_apply]
    rw [(honest_nonce j).1]
    simp [G]
  have hR1s : R1 = ((List.finRange N).map (fun j => (np j).r.2)).sum := by
    rw [hR1, List.map_map]
    refine congrArg List.sum (List.map_congr_left ?_)
    intro j _
    simp only [Function.comp_apply]
    rw [(honest_nonce j).2]
    simp [G]
  have hSs : S = ((List.finRange N).map (fun j =>
      coeffOf pks ((kp j).public_key)
        * (kp j).expanded_private_key.private_key)).sum := by
    have hlist : pks.map (fun pk => pk * coeffOf pks pk)
        = ((List.finRange N).map (fun j => (kp j).public_key)).map
            (fun pk => pk * coeffOf pks pk) :=
      congrArg (List.map _) hpks
    rw [hS, hlist, List.map_map]
    refine congrArg List.sum (List.map_congr_left ?_)
    intro j _
    simp only [Function.comp_apply]
    rw [honest_key j]
    simp [G]
    ring
  rw [hR0s, hR1s, hSs]
  rw [sig_sum_split (List.finRange N) e b
    (fun j => coeffOf pks ((kp j).public_key))
    (fun j => (kp j).expanded_private_key.private_key)
    (fun j => (np j).r.1) (fun j => (np j).r.2)]
  simp [G]

/-! ### Claims -/

/-- C1: for N ≥ 1 parties over the same message, with honestly generated
key pairs and nonce bundles, each party computing its partial signature
over the identical broadcast nonce multiset, the aggregate key from
`key_aggregation_n`, and the same message, `aggregate_partial_signatures`
applied to any one party's partial signature together with the remaining
parties' partial scalars yields a signature that passes the base
single-signer verification against the aggregate public key. -/
theorem claim_C1_round_trip (N : Nat) (kp : Fin N → ExpandedKeyPair)
    (np : Fin N → PartialNonces) (others : Fin N → List (Point × Point))
    (agg : Fin N → PublicKeyAgg) (msg : List Nat)
    (honest_key : ∀ i, (kp i).public_key
      = (kp i).expanded_private_key.private_key * G)
    (honest_nonce : ∀ i, (np i).R.1 = (np i).r.1 * G ∧ (np i).R.2 = (np i).r.2 * G)
    (hbroadcast : ∀ i, ((np i).R :: others i).Perm
      ((List.finRange N).map (fun j => (np j).R)))
    (hagg : ∀ i, key_aggregation_n
        ((List.finRange N).map (fun j => (kp j).public_key))
        ((kp i).public_key) = some (agg i))
    (i₀ : Fin N) (idxs : List (Fin N))
    (hidxs : (i₀ :: idxs).Perm (List.finRange N)) :
    (aggregate_partial_signatures
        (partial_sign (others i₀) (np i₀) (agg i₀) (kp i₀) msg)
        (idxs.map (fun j =>
          (partial_sign (others j) (np j) (agg j) (kp j) msg).my_partial_s))).verify
      (agg i₀).agg_public_key msg = true :=
  roundtrip_aux N kp np others agg msg _ _ _ _ _ _ i₀ idxs rfl rfl rfl rfl rfl
    rfl honest_key honest_nonce hbroadcast hagg hidxs

/-- Concrete two-party key pairs for the round-trip witness. -/
def kpW : Fin 2 → ExpandedKeyPair := ![⟨2, ⟨11, 2⟩⟩, ⟨3, ⟨12, 3⟩⟩]

/-- Concrete two-party nonce bundles for the round-trip witness. -/
def npW : Fin 2 → PartialNonces := ![⟨(3, 4), (3, 4)⟩, ⟨(5, 6), (5, 6)⟩]

/-- Each witness party's received public nonces (the other party's). -/
def othersW : Fin 2 → List (Point × Point) := ![[(5, 6)], [(3, 4)]]

/-- Each witness party's aggregated key. -/
def aggW : Fin 2 → PublicKeyAgg := fun i =>
  (key_aggregation_n ((List.finRange 2).map (fun j => (kpW j).public_key))
    ((kpW i).public_key)).getD ⟨0, 0⟩

/-- The witness message. -/
def msgW : List Nat := [9, 9]

/-- C1 witness: a concrete honest two-party session whose aggregate
signature passes the base verification. -/
theorem claim_C1_witness :
    (aggregate_partial_signatures
        (partial_sign (othersW 0) (npW 0) (aggW 0) (kpW 0) msgW)
        ([1].map (fun j =>
          (partial_sign (othersW j) (npW j) (aggW j) (kpW j) msgW).my_partial_s))).verify
      (aggW 0).agg_public_key msgW = true :=
  claim_C1_round_trip 2 kpW npW othersW aggW msgW (by decide) (by decide)
    (by decide) (by decide) 0 [1] (by decide)

/-- C2: `partial_sign` sums each nonce slot over every participant (own
bundle plus each received bundle), derives the binding scalar `b` as the
hash of domain tag `3`, the aggregate public key encoding, the two
aggregate nonce encodings and the message, and returns `R = R0 + b·R1`
and `my_partial_s = e · musig_coefficient · own_private_scalar +
(r0 + b·r1)` with `e` the base scheme's challenge at `(R_eff, aggregate
public key, message)`. -/
theorem claim_C2_partial_sign_formula
    (nonces_from_other_parties : List (Point × Point))
    (my_partial_nonces : PartialNonces) (agg_public_key : PublicKeyAgg)
    (my_keypair : ExpandedKeyPair) (message : List Nat) :
    let R0 := my_partial_nonces.R.1 + (nonces_from_other_parties.map Prod.fst).sum
    let R1 := my_partial_nonces.R.2 + (nonces_from_other_parties.map Prod.snd).sum
    let b := hashToScalar ([3] ++ pointBytes agg_public_key.agg_public_key
      ++ pointBytes R0 ++ pointBytes R1 ++ message)
    let e := Signature.k (R0 + b * R1) agg_public_key.agg_public_key message
    partial_sign nonces_from_other_parties my_partial_nonces agg_public_key
        my_keypair message =
      { R := R0 + b * R1,
        my_partial_s := e * agg_public_key.musig_coefficient
          * my_keypair.expanded_private_key.private_key
          + (my_partial_nonces.r.1 + b * my_partial_nonces.r.2) } :=
  partial_sign_eq _ _ _ _ _ _ _ _ _ rfl rfl rfl rfl

/-- C4: `key_aggregation_n` sorts the key list ascending by the
lexicographic order on canonical byte encodings (the sorted list is a
permutation of the input), and the second distinct key is the first key
in the sorted order whose encoding strictly exceeds the first (smallest)
key's encoding, defaulting to the first key itself. -/
theorem claim_C4_sort_and_second_key (l : List Point) (f : Point)
    (rest : List Point) (h : sortedKeys l = f :: rest) :
    List.Sorted ptLe (sortedKeys l) ∧ (sortedKeys l).Perm l ∧
      secondKey l =
        ((f :: rest).find?
          (fun pk => bytesLt (pointBytes f) (pointBytes pk))).getD f := by
  refine ⟨sortedKeys_sorted l, sortedKeys_perm l, ?_⟩
  unfold secondKey
  rw [h, List.find?_cons_of_neg _ (by simp [bytesLt_irrefl])]
  exact findSecond_eq f rest

/-- C4 witness: instantiation at the concrete key list `[3, 2]`. -/
theorem claim_C4_witness :
    List.Sorted ptLe (sortedKeys [3, 2]) ∧ (sortedKeys [3, 2]).Perm [3, 2] ∧
      secondKey [3, 2] =
        (([2, 3] : List Point).find?
          (fun pk => bytesLt (pointBytes 2) (pointBytes pk))).getD 2 :=
  claim_C4_sort_and_second_key [3, 2] 2 [3] (by decide)

/-- C5: for any permutation of the same key multiset,
`key_aggregation_n` returns an identical result (same aggregate key and,
for the same own key, same coefficient). -/
theorem claim_C5_order_independence (l₁ l₂ : List Point) (my_public_key : Point)
    (h : l₁.Perm l₂) :
    key_aggregation_n l₁ my_public_key = key_aggregation_n l₂ my_public_key := by
  unfold key_aggregation_n
  rw [sortedKeys_eq_of_perm h]

/-- C5 witness: instantiation at the two orderings of `[2, 3]`. -/
theorem claim_C5_witness :
    key_aggregation_n [2, 3] 7 = key_aggregation_n [3, 2] 7 :=
  claim_C5_order_independence [2, 3] [3, 2] 7 (by decide)

/-- C6: each secret nonce scalar is the hash of domain tag `2`, the key
pair's private derivation seed, the message bytes (empty when absent)
and that slot's 32 random bytes from the RNG, and each public nonce is
the secret scalar times the group generator. -/
theorem claim_C6_nonce_generation (keys : ExpandedKeyPair)
    (message : Option (List Nat)) (rand : List Nat × List Nat) :
    (generate_partial_nonces keys message rand).r.1 =
        hashToScalar ([2] ++ scalarBytes keys.expanded_private_key.prefixSeed
          ++ message.getD [] ++ rand.1)
    ∧ (generate_partial_nonces keys message rand).r.2 =
        hashToScalar ([2] ++ scalarBytes keys.expanded_private_key.prefixSeed
          ++ message.getD [] ++ rand.2)
    ∧ (generate_partial_nonces keys message rand).R.1 =
        (generate_partial_nonces keys message rand).r.1 * G
    ∧ (generate_partial_nonces keys message rand).R.2 =
        (generate_partial_nonces keys message rand).r.2 * G := by
  refine ⟨?_, ?_, ?_, ?_⟩
  · simp only [generate_partial_nonces]
  · simp only [generate_partial_nonces]
  · simp only [generate_partial_nonces]
    exact mul_comm G _
  · simp only [generate_partial_nonces]
    exact mul_comm G _

/-- C7: `aggregate_partial_signatures` returns the caller's own `R`
together with the caller's own partial scalar plus the sum of all
received partial scalars; it is total in its inputs and receives only
scalars from the other parties, so no `R`-consistency check happens. -/
theorem claim_C7_aggregate (my_partial_sig : PartialSignature)
    (partial_sigs_from_other_parties : List Scalar) :
    aggregate_partial_signatures my_partial_sig partial_sigs_from_other_parties =
      { R := my_partial_sig.R,
        s := my_partial_sig.my_partial_s + partial_sigs_from_other_parties.sum } := by
  simp [aggregate_partial_signatures, add_comm]

/-- C9 counterexample: with the empty key list the caller's key is
vacuously absent from the set, yet `key_aggregation_n` does not return
normally — it panics (modelled by `none`). -/
theorem claim_C9_counterexample :
    (1 : Point) ∉ ([] : List Point) ∧
      key_aggregation_n [] (1 : Point) = none :=
  ⟨by simp, rfl⟩

/-- C9 (amended): for every NON-EMPTY key list, if `my_public_key` is not
an element, `key_aggregation_n` returns normally with
`musig_coefficient` equal to its initial value `0`, while
`agg_public_key` is still the coefficient-weighted sum of the keys. -/
theorem claim_C9_missing_key (l : List Point) (my_public_key : Point)
    (hne : l ≠ []) (hnm : my_public_key ∉ l) :
    ∃ res, key_aggregation_n l my_public_key = some res ∧
      res.musig_coefficient = 0 ∧
      res.agg_public_key = (l.map (fun pk => coeffOf l pk * pk)).sum := by
  refine ⟨_, key_aggregation_n_eq l my_public_key hne, ?_, ?_⟩
  · simp [hnm]
  · simp only
    rw [List.map_congr_left (fun pk _ => mul_comm pk (coeffOf l pk))]

/-- C9 witness: instantiation at key list `[2]` and foreign key `7`. -/
theorem claim_C9_witness :
    ∃ res, key_aggregation_n [2] (7 : Point) = some res ∧
      res.musig_coefficient = 0 ∧
      res.agg_public_key = (([2] : List Point).map (fun pk => coeffOf [2] pk * pk)).sum :=
  claim_C9_missing_key [2] 7 (by decide) (by decide)

/-- C10: `key_aggregation_n` panics (modelled by `none`) exactly on the
empty key list; on every non-empty list all indexing is in bounds and it
returns normally. -/
theorem claim_C10_empty_list :
    (∀ my_public_key : Point, key_aggregation_n [] my_public_key = none) ∧
      ∀ (l : List Point) (my_public_key : Point), l ≠ [] →
        (key_aggregation_n l my_public_key).isSome = true := by
  constructor
  · intro my_public_key
    rfl
  · intro l my_public_key hne
    rw [key_aggregation_n_eq l my_public_key hne]
    rfl

/-- C3: in `key_aggregation_n` the second distinct key gets coefficient
exactly `1`; every other key gets the hash of domain tag `1`, its own
encoding and all keys' encodings in sorted order; the aggregate public
key is the coefficient-weighted sum over all keys; and the returned
`musig_coefficient` is the coefficient computed for `my_public_key`. -/
theorem claim_C3_coefficient_assignment (public_keys : List Point)
    (my_public_key : Point) (res : PublicKeyAgg)
    (hmem : my_public_key ∈ public_keys)
    (hagg : key_aggregation_n public_keys my_public_key = some res) :
    coeffOf public_keys (secondKey public_keys) = 1
    ∧ (∀ pk, pk ≠ secondKey public_keys → coeffOf public_keys pk =
        hashToScalar ([1] ++ pointBytes pk
          ++ ((sortedKeys public_keys).map pointBytes).flatten))
    ∧ res.agg_public_key =
        (public_keys.map (fun pk => coeffOf public_keys pk * pk)).sum
    ∧ res.musig_coefficient = coeffOf public_keys my_public_key := by
  have hne : public_keys ≠ [] := by
    rintro rfl
    exact List.not_mem_nil my_public_key hmem
  rw [key_aggregation_n_eq _ _ hne] at hagg
  injection hagg with hagg
  subst hagg
  refine ⟨?_, ?_, ?_, ?_⟩
  · unfold coeffOf
    rw [if_pos rfl]
  · intro pk hpk
    unfold coeffOf
    rw [if_neg hpk]
  · show (public_keys.map (fun pk => pk * coeffOf public_keys pk)).sum = _
    rw [List.map_congr_left (fun pk _ => mul_comm pk (coeffOf public_keys pk))]
  · show (if my_public_key ∈ public_keys then coeffOf public_keys my_public_key
        else 0) = _
    rw [if_pos hmem]

/-- C3 witness: instantiation at the key list `[2, 3]` and own key `2`. -/
theorem claim_C3_witness :
    coeffOf [2, 3] (secondKey [2, 3]) = 1
    ∧ (∀ pk, pk ≠ secondKey [2, 3] → coeffOf [2, 3] pk =
        hashToScalar ([1] ++ pointBytes pk
          ++ ((sortedKeys [2, 3]).map pointBytes).flatten))
    ∧ ((key_aggregation_n [2, 3] 2).getD ⟨0, 0⟩).agg_public_key =
        (([2, 3] : List Point).map (fun pk => coeffOf [2, 3] pk * pk)).sum
    ∧ ((key_aggregation_n [2, 3] 2).getD ⟨0, 0⟩).musig_coefficient =
        coeffOf [2, 3] 2 :=
  claim_C3_coefficient_assignment [2, 3] 2 _ (by decide) (by decide)

/-- C8: on the singleton key list the aggregation returns the key itself
with coefficient `1` (the sole key is the second distinct key), and the
one-party protocol output is an ordinary single-party signature over the
same message (with the effective nonce as its nonce scalar). -/
theorem claim_C8_single_party (kp : ExpandedKeyPair) (np : PartialNonces)
    (msg : List Nat)
    (hpk : kp.public_key = kp.expanded_private_key.private_key * G)
    (hR1 : np.R.1 = np.r.1 * G) (hR2 : np.R.2 = np.r.2 * G) :
    key_aggregation_n [kp.public_key] kp.public_key =
        some { agg_public_key := kp.public_key, musig_coefficient := 1 }
    ∧ secondKey [kp.public_key] = kp.public_key
    ∧ ∃ rho,
        aggregate_partial_signatures
            (partial_sign [] np
              { agg_public_key := kp.public_key, musig_coefficient := 1 } kp msg)
            []
          = ordinary_sign kp rho msg := by
  have hsecond : secondKey [kp.public_key] = kp.public_key := rfl
  have hcoeff : coeffOf [kp.public_key] kp.public_key = 1 := by
    unfold coeffOf
    rw [hsecond, if_pos rfl]
  refine ⟨?_, hsecond, ?_⟩
  · rw [key_aggregation_n_eq _ _ (by simp)]
    simp [hcoeff]
  · refine ⟨np.r.1 + bindingScalar kp.public_key np.R.1 np.R.2 msg * np.r.2, ?_⟩
    have hps := partial_sign_eq [] np ⟨kp.public_key, 1⟩ kp msg np.R.1 np.R.2
      (bindingScalar kp.public_key np.R.1 np.R.2 msg)
      (Signature.k (np.R.1 + bindingScalar kp.public_key np.R.1 np.R.2 msg * np.R.2)
        kp.public_key msg)
      (by simp) (by simp) rfl rfl
    rw [hps]
    have hReff : np.R.1 + bindingScalar kp.public_key np.R.1 np.R.2 msg * np.R.2
        = (np.r.1 + bindingScalar kp.public_key np.R.1 np.R.2 msg * np.r.2) * G := by
      rw [hR1, hR2]
      ring
    simp only [aggregate_partial_signatures, ordinary_sign, Signature.mk.injEq]
    constructor
    · exact hReff
    · rw [← hReff]
      simp only [List.sum_nil]
      ring

/-- C8 witness: instantiation at a concrete one-party session. -/
theorem claim_C8_witness :
    key_aggregation_n [(5 : Point)] 5 = some ⟨5, 1⟩
    ∧ secondKey [(5 : Point)] = 5
    ∧ ∃ rho,
        aggregate_partial_signatures
            (partial_sign [] ⟨(3, 4), (3, 4)⟩ ⟨5, 1⟩ ⟨5, ⟨7, 5⟩⟩ []) []
          = ordinary_sign ⟨5, ⟨7, 5⟩⟩ rho [] :=
  claim_C8_single_party ⟨5, ⟨7, 5⟩⟩ ⟨(3, 4), (3, 4)⟩ [] (by decide) (by decide)
    (by decide)

/-- C10 witness: instantiations at `[]` and at `[4, 5]`. -/
theorem claim_C10_witness :
    key_aggregation_n [] (3 : Point) = none ∧
      (key_aggregation_n [4, 5] (4 : Point)).isSome = true :=
  ⟨claim_C10_empty_list.1 3, claim_C10_empty_list.2 [4, 5] 4 (by decide)⟩
